import Mathlib

/-!
Verification of the ledger-balance aggregation and debt-settlement engine of
the Epensetracking repository.

The engine's money values are JavaScript numbers; we embed them as exact
rationals (ℚ).  `Math.round (x * 100) / 100` becomes `round2`, and the
repeated `0.01` tolerance literal becomes `tol`.  JavaScript `Map` objects
(which preserve insertion order and update in place) are embedded as
association lists with first-match lookup and in-place update.

Fields irrelevant to the claims (display names, group ids, dates, categories)
are omitted from the record embeddings; user ids are UUID strings in the
source, so the `"a:b"` pair keys of `getGroupBalances` are embedded as
`String × String` pairs (the source's `split ':'` re-parse is injective on
colon-free ids).
-/

namespace Expensetracking

/-- The `0.01` rounding/zero tolerance that appears as a literal throughout
`nlp-parser.ts`, `GroupDetail.tsx` and the service layer. -/
def tol : ℚ := 1/100

/-- JavaScript rounding `Math.round (x * 100) / 100`: round to two decimal places,
halves toward +∞ (JavaScript `Math.round` semantics). -/
def round2 (q : ℚ) : ℚ := (⌊q * 100 + 1/2⌋ : ℤ) / 100

/-- A JavaScript `Map` with ℚ values: an insertion-ordered association list. -/
abbrev AList (κ : Type) := List (κ × ℚ)

/-- JavaScript `Map.get`: first-match lookup. -/
def getV {κ : Type} [DecidableEq κ] : AList κ → κ → Option ℚ
  | [], _ => none
  | (k', v) :: t, k => if k' = k then some v else getV t k

/-- JavaScript `Map.get(k) || 0`: lookup with default `0`. -/
def valD {κ : Type} [DecidableEq κ] (m : AList κ) (k : κ) : ℚ :=
  (getV m k).getD 0

/-- JavaScript `Map.set`: update the existing entry in place, else append at the end. -/
def setV {κ : Type} [DecidableEq κ] : AList κ → κ → ℚ → AList κ
  | [], k, v => [(k, v)]
  | (k', v') :: t, k, v => if k' = k then (k, v) :: t else (k', v') :: setV t k v

/-- One split row (`expense_splits`): the member and their share. -/
structure Split where
  user_id : String
  share_amount : ℚ
deriving DecidableEq, Repr

/-- One expense with its splits (display fields omitted). -/
structure Expense where
  amount : ℚ
  paid_by : String
  splits : List Split
deriving DecidableEq, Repr

/-- One row of the `UserBalance` shape produced by `getGroupBalances`. -/
structure UserBalance where
  from_user : String
  to_user : String
  owes : ℚ
deriving DecidableEq, Repr

/-- One per-member net balance (`SimplifiedBalance` in `types.ts`). -/
structure SimplifiedBalance where
  user_id : String
  net_amount : ℚ
deriving DecidableEq, Repr

/-- The body of the split loop of `getGroupBalances`
(`database-service`, `part_010` lines 618–643): skip the payer's own split,
then net the split amount against the reverse direction in the pairwise
balance map. -/
def gbStep (paid_by : String) (m : AList (String × String)) (s : Split) :
    AList (String × String) :=
  if s.user_id = paid_by then m
  else
    let key := (s.user_id, paid_by)
    let reverseKey := (paid_by, s.user_id)
    let currentOwed := valD m key
    let currentOwedReverse := valD m reverseKey
    let netAmount := s.share_amount
    if currentOwedReverse > 0 then
      if currentOwedReverse ≥ netAmount then
        setV m reverseKey (currentOwedReverse - netAmount)
      else
        setV (setV m reverseKey 0) key (currentOwed + (netAmount - currentOwedReverse))
    else
      setV m key (currentOwed + netAmount)

/-- The pairwise balance map built by `getGroupBalances` over all expenses
(absent `expense.splits` is the empty list). -/
def getGroupBalancesMap (expenses : List Expense) : AList (String × String) :=
  expenses.foldl (fun m e => e.splits.foldl (gbStep e.paid_by) m) []

/-- The function `getGroupBalances` (`part_010` lines 611–664): build the pairwise map,
then keep entries above `0.01`, rounded to two decimals. -/
def getGroupBalances (expenses : List Expense) : List UserBalance :=
  (getGroupBalancesMap expenses).filterMap fun kv =>
    if kv.2 > tol then some ⟨kv.1.1, kv.1.2, round2 kv.2⟩ else none

/-- One step of the aggregation loop of `simplifyBalances`
(`nlp-parser.ts` lines 297–331): initialise absent users to `0`, then
subtract `owes` from the `from_user` and add it to the `to_user`. -/
def simplifyStep (m : AList String) (b : UserBalance) : AList String :=
  let m1 := if (getV m b.from_user).isSome then m else setV m b.from_user 0
  let m2 := if (getV m1 b.to_user).isSome then m1 else setV m1 b.to_user 0
  let m3 := setV m2 b.from_user (valD m2 b.from_user - b.owes)
  setV m3 b.to_user (valD m3 b.to_user + b.owes)

/-- The per-member accumulation map of `simplifyBalances`, before rounding. -/
def simplifyAccum (userBalances : List UserBalance) : AList String :=
  userBalances.foldl simplifyStep []

/-- The function `simplifyBalances` (`nlp-parser.ts` lines 297–331): aggregate signed net
balances per user, then round each to two decimal places. -/
def simplifyBalances (userBalances : List UserBalance) : List SimplifiedBalance :=
  (simplifyAccum userBalances).map fun kv => ⟨kv.1, round2 kv.2⟩

/-- A settlement transaction (`DebtFlow` in `nlp-parser.ts`; the source's
field names are `from` / `to` / `amount`, display names omitted). -/
structure DebtFlow where
  fromUser : String
  toUser : String
  amount : ℚ
deriving DecidableEq, Repr

/-- Candidate comparison of the creditor scan:
`nonZeroBalances[i].net_amount > nonZeroBalances[maxCreditorIndex].net_amount`. -/
def gtB (x y : ℚ) : Bool := decide (x > y)

/-- Candidate comparison of the debtor scan:
`nonZeroBalances[i].net_amount < nonZeroBalances[maxDebtorIndex].net_amount`. -/
def ltB (x y : ℚ) : Bool := decide (x < y)

/-- The linear index scan of `calculateMinCashFlow`: starting from index `0`,
replace the best index exactly when the candidate value beats the current
best value. `i` is the index of the head of the remaining list, `bv` the value
at the current best index `best`. -/
def bestIdxAux (cmp : ℚ → ℚ → Bool) : List ℚ → ℕ → ℚ → ℕ → ℕ
  | [], _, _, best => best
  | v :: t, i, bv, best =>
      if cmp v bv then bestIdxAux cmp t (i + 1) v i
      else bestIdxAux cmp t (i + 1) bv best

/-- Index selected by one `for` scan of `calculateMinCashFlow` over the
current net amounts (`0` on the empty list, like the source's initial index). -/
def bestIdx (cmp : ℚ → ℚ → Bool) : List ℚ → ℕ
  | [] => 0
  | v :: t => bestIdxAux cmp t 1 v 0

/-- Fallback element for indexing (the loop only indexes in bounds). -/
def dflt : SimplifiedBalance := ⟨"", 0⟩

/-- One iteration of the `while` loop of `calculateMinCashFlow`
(`nlp-parser.ts` lines 230–287): select the extremal creditor and debtor,
break (`none`) when no meaningful pair is left, otherwise emit the rounded
settlement transaction, update the two balances in place, and remove the
balances that are now settled (the creditor by its index, the debtor by a
fresh `findIndex` on its user id).  The source's decrement of
`maxDebtorIndex` after the creditor splice is dead code (the debtor splice
uses `findIndex`), so it has no counterpart here. -/
def cmfIter (bs : List SimplifiedBalance) : Option (DebtFlow × List SimplifiedBalance) :=
  let vals := bs.map SimplifiedBalance.net_amount
  let maxCreditorIndex := bestIdx gtB vals
  let maxDebtorIndex := bestIdx ltB vals
  let creditor := bs.getD maxCreditorIndex dflt
  let debtor := bs.getD maxDebtorIndex dflt
  if creditor.net_amount ≤ tol ∨ debtor.net_amount ≥ -tol then none
  else
    let settlementAmount := min creditor.net_amount |debtor.net_amount|
    let tx : DebtFlow := ⟨debtor.user_id, creditor.user_id, round2 settlementAmount⟩
    let bs1 := bs.set maxCreditorIndex
      ⟨creditor.user_id, creditor.net_amount - settlementAmount⟩
    let debtor1 := bs1.getD maxDebtorIndex dflt
    let bs2 := bs1.set maxDebtorIndex
      ⟨debtor1.user_id, debtor1.net_amount + settlementAmount⟩
    let creditorFinal := bs2.getD maxCreditorIndex dflt
    let debtorFinal := bs2.getD maxDebtorIndex dflt
    let bs3 := if |creditorFinal.net_amount| ≤ tol then bs2.eraseIdx maxCreditorIndex else bs2
    let bs4 := if |debtorFinal.net_amount| ≤ tol ∧ bs3.length ≠ 0 then
        match bs3.findIdx? (fun b => b.user_id = debtor.user_id) with
        | some currentDebtorIndex => bs3.eraseIdx currentDebtorIndex
        | none => bs3
      else bs3
    some (tx, bs4)

/-- The `while (nonZeroBalances.length > 1)` loop, with an explicit iteration
budget `fuel`; `none` means the budget was exhausted before the loop exited
(`cmfLoop_isSome` below shows this never happens for sufficient fuel). -/
def cmfLoop (fuel : ℕ) (bs : List SimplifiedBalance) (acc : List DebtFlow) :
    Option (List DebtFlow) :=
  if bs.length ≤ 1 then some acc
  else if fuel = 0 then none
  else match cmfIter bs with
    | none => some acc
    | some (tx, bs') => cmfLoop (fuel - 1) bs' (acc ++ [tx])
termination_by fuel
decreasing_by simp_all; omega

/-- The function `calculateMinCashFlow` (`nlp-parser.ts` lines 213–290): drop balances
within `0.01` of zero, then run the greedy settlement loop.  The fuel
`nonZeroBalances.length` is an upper bound on the iterations the source's
loop can perform (each iteration removes at least one entry), proved in
`cmfLoop_isSome`; `getD []` is never the exhausted-fuel case. -/
def calculateMinCashFlow (balances : List SimplifiedBalance) : List DebtFlow :=
  let nonZeroBalances := balances.filter fun b => |b.net_amount| > tol
  (cmfLoop nonZeroBalances.length nonZeroBalances []).getD []

/-- The function `validateCashFlow` (`nlp-parser.ts` lines 352–366), verbatim: the
transaction total adds and subtracts each amount, the result is the
conjunction of the two closeness checks. -/
def validateCashFlow (originalBalances : List SimplifiedBalance)
    (transactions : List DebtFlow) : Bool :=
  let originalTotal := originalBalances.foldl (fun sum b => sum + b.net_amount) 0
  let transactionTotal :=
    transactions.foldl (fun sum t => sum + t.amount - t.amount) 0
  decide (|originalTotal| < tol) && decide (|transactionTotal| < tol)

/-- A group member row (only the user id matters for the claims). -/
structure GroupMember where
  user_id : String
deriving DecidableEq, Repr

/-- The function `calculateSimplifiedBalances` (`GroupDetail.tsx` lines 50–82): initialise
every member other than the current user to `0`, accumulate the raw balances
relative to the current user, then keep only balances with `|net| > 0.01`. -/
def calculateSimplifiedBalances (rawBalances : List UserBalance)
    (members : List GroupMember) (currentUserId : String) : List SimplifiedBalance :=
  let m0 : AList String := members.foldl
    (fun m mem => if mem.user_id ≠ currentUserId then setV m mem.user_id 0 else m) []
  let m1 := rawBalances.foldl (fun m b =>
    if b.from_user = currentUserId then setV m b.to_user (valD m b.to_user + b.owes)
    else if b.to_user = currentUserId then setV m b.from_user (valD m b.from_user - b.owes)
    else m) m0
  (m1.map fun kv => (⟨kv.1, kv.2⟩ : SimplifiedBalance)).filter
    fun b => |b.net_amount| > tol

/-- The custom-split branch of the expense form's submit handler
(`part_002` lines 85–96): sum the entered amounts; if they differ from the
expense total by more than `0.01`, reject with the error
`Split amounts must equal total expense` (`none`); otherwise produce the
split rows that are stored. -/
def customSplitsCheck (amountNum : ℚ) (customSplits : List (String × ℚ)) :
    Option (List Split) :=
  let totalCustom := (customSplits.map Prod.snd).sum
  if |totalCustom - amountNum| > tol then none
  else some (customSplits.map fun kv => ⟨kv.1, kv.2⟩)

/-- The function `createSplits` (`supabase-service.ts` lines 163–171)
inserting into the `expense_splits` table, whose schema (`part_012` line 66)
carries `CHECK (share_amount >= 0)`: the insert errors when any row violates
the constraint, and the error is thrown to the caller (`none`); otherwise
the stored rows are returned. -/
def createSplits (splits : List Split) : Option (List Split) :=
  if splits.all (fun s => decide (0 ≤ s.share_amount)) then some splits else none

/-- A directed gross obligation, as in §4.1 of the specification. -/
structure PairwiseObligation where
  debtor : String
  creditor : String
  amount : ℚ
deriving DecidableEq, Repr

/-- Modelled from the spec (§4.1 Split Ledger Builder): for each expense, for
each split whose member is not the payer, one obligation
`{debtor: split.member, creditor: expense.payer, amount: split.share_amount}`. -/
def build (expenses : List Expense) : List PairwiseObligation :=
  (expenses.map fun e =>
    (e.splits.filter fun s => s.user_id ≠ e.paid_by).map fun s =>
      (⟨s.user_id, e.paid_by, s.share_amount⟩ : PairwiseObligation)).flatten

/-- The pairwise-netting body of `getGroupBalances`, applied to one raw
obligation (identical to the non-self branch of `gbStep`). -/
def obStep (m : AList (String × String)) (ob : PairwiseObligation) :
    AList (String × String) :=
  let key := (ob.debtor, ob.creditor)
  let reverseKey := (ob.creditor, ob.debtor)
  let currentOwed := valD m key
  let currentOwedReverse := valD m reverseKey
  let netAmount := ob.amount
  if currentOwedReverse > 0 then
    if currentOwedReverse ≥ netAmount then
      setV m reverseKey (currentOwedReverse - netAmount)
    else
      setV (setV m reverseKey 0) key (currentOwed + (netAmount - currentOwedReverse))
  else
    setV m key (currentOwed + netAmount)

/-- The incremental pairwise netting of a list of raw obligations (the
reverse-key absorption step of `getGroupBalances`, isolated from the final
drop-and-round conversion). -/
def netPairs (obs : List PairwiseObligation) : AList (String × String) :=
  obs.foldl obStep []

/-- Read the entries of a pairwise balance map back as `UserBalance` rows
(no dropping, no rounding): the input format of `simplifyBalances`. -/
def toRows (m : AList (String × String)) : List UserBalance :=
  m.map fun kv => ⟨kv.1.1, kv.1.2, kv.2⟩

/-- Modelled from the spec (§4.2 step 2 / §9 open question): the net balance
of one member by direct signed accumulation of raw obligations, with no
pairwise-netting step. -/
def directSigned (obs : List PairwiseObligation) (u : String) : ℚ :=
  (obs.map fun ob =>
    (if ob.creditor = u then ob.amount else 0) -
      (if ob.debtor = u then ob.amount else 0)).sum

/-- Modelled from the claim (C2) and spec §8: apply one settlement
transaction to a balance list — the creditor (`to`) is owed `amount` less,
the debtor (`from`) owes `amount` less. -/
def applyTx (bs : List SimplifiedBalance) (t : DebtFlow) : List SimplifiedBalance :=
  bs.map fun b =>
    if b.user_id = t.toUser then ⟨b.user_id, b.net_amount - t.amount⟩
    else if b.user_id = t.fromUser then ⟨b.user_id, b.net_amount + t.amount⟩
    else b

/-- Apply a whole settlement plan in order. -/
def applyTxs (bs : List SimplifiedBalance) (ts : List DebtFlow) :
    List SimplifiedBalance :=
  ts.foldl applyTx bs

/-- Sum of the values of a balance map. -/
def sumV {κ : Type} (m : AList κ) : ℚ := (m.map Prod.snd).sum

/-- A rational is a whole number of cents (an exact multiple of `0.01`). -/
def Cent (q : ℚ) : Prop := ∃ z : ℤ, q = z / 100

/-- Signed contribution of a list of `UserBalance` rows to one member `u`:
what the rows say `u` is owed minus what they say `u` owes. -/
def rowsSigned (rows : List UserBalance) (u : String) : ℚ :=
  (rows.map fun b =>
    (if b.to_user = u then b.owes else 0) - (if b.from_user = u then b.owes else 0)).sum

/-- Signed contribution of one pairwise map entry `(k, w)` (meaning `k.1`
owes `k.2` the amount `w`) to the net balance of member `u`. -/
def entryContrib (k : String × String) (w : ℚ) (u : String) : ℚ :=
  (if k.2 = u then w else 0) - (if k.1 = u then w else 0)

/-- Signed contribution of the entries of a pairwise balance map to one
member `u`. -/
def memberContrib (m : AList (String × String)) (u : String) : ℚ :=
  (m.map fun kv => entryContrib kv.1 kv.2 u).sum

example : simplifyBalances [⟨"A", "B", 5⟩, ⟨"B", "A", 5⟩] =
    [⟨"A", 0⟩, ⟨"B", 0⟩] := by
  norm_num +decide [simplifyBalances, simplifyAccum, simplifyStep, getV, setV, valD, round2]

example : getGroupBalances [⟨10, "A", [⟨"B", 7⟩]⟩] = [⟨"B", "A", 7⟩] := by
  norm_num +decide [getGroupBalances, getGroupBalancesMap, gbStep, getV, setV, valD, round2, tol, List.filterMap_cons]

example : getGroupBalances [⟨300, "A", [⟨"A", 100⟩, ⟨"B", 100⟩, ⟨"C", 100⟩]⟩] =
    [⟨"B", "A", 100⟩, ⟨"C", "A", 100⟩] := by
  norm_num +decide [getGroupBalances, getGroupBalancesMap, gbStep, getV, setV, valD, round2, tol, List.filterMap_cons]

example :
    calculateMinCashFlow [⟨"A", 3⟩, ⟨"B", -3⟩] = [⟨"B", "A", 3⟩] := by
  norm_num +decide [calculateMinCashFlow, List.filter_cons, decide_eq_true_eq, tol, abs, max_def]
  repeat
    rw [cmfLoop]
    norm_num +decide [cmfIter, bestIdx, bestIdxAux, gtB, ltB, dflt, round2, tol, abs, max_def]

example :
    calculateMinCashFlow [⟨"A", 7/200⟩, ⟨"B", -7/200⟩] = [⟨"B", "A", 4/100⟩] := by
  norm_num +decide [calculateMinCashFlow, List.filter_cons, decide_eq_true_eq, tol, abs, max_def]
  repeat
    rw [cmfLoop]
    norm_num +decide [cmfIter, bestIdx, bestIdxAux, gtB, ltB, dflt, round2, tol, abs, max_def]

example :
    calculateMinCashFlow [⟨"A", 5⟩, ⟨"A", -5⟩] = [⟨"A", "A", 5⟩] := by
  norm_num +decide [calculateMinCashFlow, List.filter_cons, decide_eq_true_eq, tol, abs, max_def]
  repeat
    rw [cmfLoop]
    norm_num +decide [cmfIter, bestIdx, bestIdxAux, gtB, ltB, dflt, round2, tol, abs, max_def]

example :
    calculateMinCashFlow
      [⟨"A", 3/100⟩, ⟨"B", 3/100⟩, ⟨"C", -2/100⟩, ⟨"D", -2/100⟩, ⟨"E", -2/100⟩] =
      [⟨"C", "A", 2/100⟩, ⟨"D", "B", 2/100⟩] := by
  norm_num +decide [calculateMinCashFlow, List.filter_cons, decide_eq_true_eq, tol, abs, max_def]
  repeat
    rw [cmfLoop]
    norm_num +decide [cmfIter, bestIdx, bestIdxAux, gtB, ltB, dflt, round2, tol, abs, max_def]

/-! ### Association-list lemmas -/

theorem getV_setV {κ : Type} [DecidableEq κ] (m : AList κ) (k u : κ) (v : ℚ) :
    getV (setV m k v) u = if k = u then some v else getV m u := by
  induction m with
  | nil => simp [setV, getV]
  | cons hd t ih =>
    obtain ⟨k', v'⟩ := hd
    simp only [setV, getV]
    split_ifs <;> simp_all [getV]

theorem valD_setV {κ : Type} [DecidableEq κ] (m : AList κ) (k u : κ) (v : ℚ) :
    valD (setV m k v) u = if k = u then v else valD m u := by
  simp only [valD, getV_setV]
  split_ifs <;> rfl

theorem valD_nil {κ : Type} [DecidableEq κ] (k : κ) : valD ([] : AList κ) k = 0 := rfl

theorem valD_not_isSome {κ : Type} [DecidableEq κ] {m : AList κ} {k : κ}
    (h : (getV m k).isSome = false) : valD m k = 0 := by
  unfold valD
  cases hg : getV m k with
  | none => rfl
  | some v => rw [hg] at h; simp at h

theorem sumV_nil {κ : Type} : sumV ([] : AList κ) = 0 := rfl

theorem sumV_setV {κ : Type} [DecidableEq κ] (m : AList κ) (k : κ) (v : ℚ) :
    sumV (setV m k v) = sumV m - valD m k + v := by
  induction m with
  | nil => simp [setV, sumV, valD, getV]
  | cons hd t ih =>
    obtain ⟨k', v'⟩ := hd
    by_cases hk : k' = k
    · subst hk
      simp [setV, sumV, valD, getV]
      ring
    · simp only [setV, if_neg hk, sumV, List.map_cons, List.sum_cons, valD, getV,
        if_neg (fun h => hk h)]
      have := ih
      simp only [sumV, valD] at this
      rw [this]
      ring

theorem mem_setV {κ : Type} [DecidableEq κ] {m : AList κ} {k : κ} {v : ℚ}
    {p : κ × ℚ} (h : p ∈ setV m k v) : p ∈ m ∨ p = (k, v) := by
  induction m with
  | nil => simp [setV] at h; simp [h]
  | cons hd t ih =>
    obtain ⟨k', v'⟩ := hd
    by_cases hk : k' = k
    · subst hk
      simp only [setV, if_pos rfl] at h
      rcases List.mem_cons.mp h with h | h
      · right; exact h
      · left; exact List.mem_cons_of_mem _ h
    · simp only [setV, if_neg hk] at h
      rcases List.mem_cons.mp h with h | h
      · left; exact h ▸ List.mem_cons_self _ _
      · rcases ih h with h | h
        · left; exact List.mem_cons_of_mem _ h
        · right; exact h

theorem getV_eq_some_mem {κ : Type} [DecidableEq κ] {m : AList κ} {k : κ} {v : ℚ}
    (h : getV m k = some v) : (k, v) ∈ m := by
  induction m with
  | nil => simp [getV] at h
  | cons hd t ih =>
    obtain ⟨k', v'⟩ := hd
    simp only [getV] at h
    split at h
    · rename_i hk
      obtain rfl := Option.some.inj h
      exact hk ▸ List.mem_cons_self _ _
    · exact List.mem_cons_of_mem _ (ih h)

/-! ### Cent lemmas: exact multiples of 0.01 -/

theorem cent_round2 (q : ℚ) : Cent (round2 q) := ⟨⌊q * 100 + 1/2⌋, rfl⟩

theorem cent_zero : Cent 0 := ⟨0, by norm_num⟩

theorem Cent.add {a b : ℚ} (ha : Cent a) (hb : Cent b) : Cent (a + b) := by
  obtain ⟨x, hx⟩ := ha
  obtain ⟨y, hy⟩ := hb
  exact ⟨x + y, by rw [hx, hy]; push_cast; ring⟩

theorem Cent.sub {a b : ℚ} (ha : Cent a) (hb : Cent b) : Cent (a - b) := by
  obtain ⟨x, hx⟩ := ha
  obtain ⟨y, hy⟩ := hb
  exact ⟨x - y, by rw [hx, hy]; push_cast; ring⟩

theorem round2_eq_self {q : ℚ} (h : Cent q) : round2 q = q := by
  obtain ⟨z, hz⟩ := h
  subst hz
  unfold round2
  have h1 : (z : ℚ) / 100 * 100 + 1/2 = 1/2 + (z : ℚ) := by field_simp; ring
  rw [h1, Int.floor_add_int]
  norm_num

theorem valD_cent {κ : Type} [DecidableEq κ] {m : AList κ} {k : κ}
    (h : ∀ p ∈ m, Cent p.2) : Cent (valD m k) := by
  unfold valD
  cases hg : getV m k with
  | none => exact cent_zero
  | some v => exact h _ (getV_eq_some_mem hg)

/-! ### Conservation of money through `simplifyBalances` -/

theorem sumV_simplifyStep (m : AList String) (b : UserBalance) :
    sumV (simplifyStep m b) = sumV m := by
  unfold simplifyStep
  set m1 := if (getV m b.from_user).isSome then m else setV m b.from_user 0 with hm1
  set m2 := if (getV m1 b.to_user).isSome then m1 else setV m1 b.to_user 0 with hm2
  have h1 : sumV m1 = sumV m := by
    rw [hm1]
    split
    · rfl
    · rename_i hno
      rw [sumV_setV, valD_not_isSome (Bool.not_eq_true _ ▸ hno)]
      ring
  have h2 : sumV m2 = sumV m1 := by
    rw [hm2]
    split
    · rfl
    · rename_i hno
      rw [sumV_setV, valD_not_isSome (Bool.not_eq_true _ ▸ hno)]
      ring
  rw [sumV_setV, sumV_setV, h2, h1]
  ring

theorem cent_simplifyStep {m : AList String} {b : UserBalance}
    (hm : ∀ p ∈ m, Cent p.2) (hb : Cent b.owes) :
    ∀ p ∈ simplifyStep m b, Cent p.2 := by
  unfold simplifyStep
  set m1 := if (getV m b.from_user).isSome then m else setV m b.from_user 0 with hm1
  set m2 := if (getV m1 b.to_user).isSome then m1 else setV m1 b.to_user 0 with hm2
  have h1 : ∀ p ∈ m1, Cent p.2 := by
    rw [hm1]
    split
    · exact hm
    · intro p hp
      rcases mem_setV hp with h | h
      · exact hm _ h
      · rw [h]; exact cent_zero
  have h2 : ∀ p ∈ m2, Cent p.2 := by
    rw [hm2]
    split
    · exact h1
    · intro p hp
      rcases mem_setV hp with h | h
      · exact h1 _ h
      · rw [h]; exact cent_zero
  intro p hp
  rcases mem_setV hp with h | h
  · rcases mem_setV h with h' | h'
    · exact h2 _ h'
    · rw [h']; exact (valD_cent h2).sub hb
  · rw [h]
    exact (valD_cent (fun p hp => by
      rcases mem_setV hp with h' | h'
      · exact h2 _ h'
      · rw [h']; exact (valD_cent h2).sub hb)).add hb

theorem sumV_foldl_simplifyStep (rows : List UserBalance) :
    ∀ m : AList String, sumV (rows.foldl simplifyStep m) = sumV m := by
  induction rows with
  | nil => intro m; rfl
  | cons b t ih =>
    intro m
    rw [List.foldl_cons, ih, sumV_simplifyStep]

theorem cent_foldl_simplifyStep (rows : List UserBalance) :
    ∀ m : AList String, (∀ p ∈ m, Cent p.2) → (∀ b ∈ rows, Cent b.owes) →
      ∀ p ∈ rows.foldl simplifyStep m, Cent p.2 := by
  induction rows with
  | nil => intro m hm _; exact hm
  | cons b t ih =>
    intro m hm hrows
    rw [List.foldl_cons]
    exact ih _ (cent_simplifyStep hm (hrows b (List.mem_cons_self _ _)))
      (fun x hx => hrows x (List.mem_cons_of_mem _ hx))

theorem cent_getGroupBalances {es : List Expense} :
    ∀ b ∈ getGroupBalances es, Cent b.owes := by
  intro b hb
  unfold getGroupBalances at hb
  rcases List.mem_filterMap.mp hb with ⟨kv, _, hkv⟩
  split at hkv
  · obtain rfl := Option.some.inj hkv
    exact cent_round2 _
  · exact absurd hkv (by simp)

/-- C1.  Conservation: for every expense list, the sum over all members of
the net balances produced by `simplifyBalances` on the output of
`getGroupBalances` is exactly zero (in particular it is zero within the
tolerance, for any input — valid or not). -/
theorem conservation_sum_net_balances_zero (es : List Expense) :
    ((simplifyBalances (getGroupBalances es)).map SimplifiedBalance.net_amount).sum
      = 0 := by
  unfold simplifyBalances
  rw [List.map_map]
  have hacc : ∀ p ∈ simplifyAccum (getGroupBalances es), Cent p.2 :=
    cent_foldl_simplifyStep _ _ (by simp) cent_getGroupBalances
  have hmap :
      (simplifyAccum (getGroupBalances es)).map
        (SimplifiedBalance.net_amount ∘ fun kv => (⟨kv.1, round2 kv.2⟩ : SimplifiedBalance)) =
      (simplifyAccum (getGroupBalances es)).map Prod.snd := by
    apply List.map_congr_left
    intro p hp
    exact round2_eq_self (hacc p hp)
  rw [hmap]
  have := sumV_foldl_simplifyStep (getGroupBalances es) []
  rw [sumV_nil] at this
  exact this

/-! ### The builder: `getGroupBalances` processes exactly the spec obligations -/

theorem gbStep_eq_obStep (p : String) (m : AList (String × String)) (s : Split) :
    gbStep p m s =
      if s.user_id = p then m else obStep m ⟨s.user_id, p, s.share_amount⟩ := rfl

theorem foldl_gbStep_splits (p : String) (splits : List Split) :
    ∀ m : AList (String × String),
      splits.foldl (gbStep p) m =
        ((splits.filter fun s => s.user_id ≠ p).map fun s =>
          (⟨s.user_id, p, s.share_amount⟩ : PairwiseObligation)).foldl obStep m := by
  induction splits with
  | nil => intro m; rfl
  | cons s t ih =>
    intro m
    rw [List.foldl_cons, gbStep_eq_obStep]
    by_cases h : s.user_id = p
    · rw [if_pos h, ih]
      have : (List.filter (fun s => s.user_id ≠ p) (s :: t)) =
          List.filter (fun s => s.user_id ≠ p) t := by
        simp [List.filter_cons, h]
      rw [this]
    · rw [if_neg h, ih]
      have : (List.filter (fun s => s.user_id ≠ p) (s :: t)) =
          s :: List.filter (fun s => s.user_id ≠ p) t := by
        simp [List.filter_cons, h]
      rw [this, List.map_cons, List.foldl_cons]

theorem getGroupBalancesMap_foldl (es : List Expense) :
    ∀ m : AList (String × String),
      es.foldl (fun m e => e.splits.foldl (gbStep e.paid_by) m) m =
        (build es).foldl obStep m := by
  induction es with
  | nil => intro m; rfl
  | cons e t ih =>
    intro m
    rw [List.foldl_cons, ih, foldl_gbStep_splits]
    have hb : build (e :: t) =
        ((e.splits.filter fun s => s.user_id ≠ e.paid_by).map fun s =>
          (⟨s.user_id, e.paid_by, s.share_amount⟩ : PairwiseObligation)) ++ build t := by
      simp [build]
    rw [hb, List.foldl_append]

/-- C4.  Builder behaviour: the pairwise balance map that `getGroupBalances`
builds from an expense list is exactly the map obtained by netting the spec's
obligation list `build expenses` — one obligation
`{debtor: split.member, creditor: expense.payer, amount: split.share_amount}`
for precisely those splits whose member differs from the payer.  Splits whose
member equals the payer are dropped by the filter inside `build`, hence
contribute nothing to any balance. -/
theorem builder_emits_spec_obligations (es : List Expense) :
    getGroupBalancesMap es = netPairs (build es) :=
  getGroupBalancesMap_foldl es []

/-! ### The pairwise-netting step does not change per-member totals -/

theorem entryContrib_zero (k : String × String) (u : String) :
    entryContrib k 0 u = 0 := by
  simp [entryContrib]

theorem entryContrib_swap (a b : String) (w : ℚ) (u : String) :
    entryContrib (b, a) w u = -entryContrib (a, b) w u := by
  simp only [entryContrib]
  ring

theorem entryContrib_add (k : String × String) (x y : ℚ) (u : String) :
    entryContrib k (x + y) u = entryContrib k x u + entryContrib k y u := by
  simp only [entryContrib]
  split_ifs <;> ring

theorem entryContrib_sub (k : String × String) (x y : ℚ) (u : String) :
    entryContrib k (x - y) u = entryContrib k x u - entryContrib k y u := by
  simp only [entryContrib]
  split_ifs <;> ring

theorem entryContrib_diag (a : String) (w : ℚ) (u : String) :
    entryContrib (a, a) w u = 0 := by
  simp [entryContrib]

theorem memberContrib_nil (u : String) : memberContrib [] u = 0 := rfl

theorem memberContrib_setV (m : AList (String × String)) (k : String × String)
    (v : ℚ) (u : String) :
    memberContrib (setV m k v) u =
      memberContrib m u + entryContrib k v u - entryContrib k (valD m k) u := by
  induction m with
  | nil =>
    simp [setV, memberContrib, valD, getV, entryContrib_zero]
  | cons hd t ih =>
    obtain ⟨k', v'⟩ := hd
    by_cases hk : k' = k
    · subst hk
      have hset : setV ((k', v') :: t) k' v = (k', v) :: t := by simp [setV]
      have hval : valD ((k', v') :: t) k' = v' := by simp [valD, getV]
      rw [hset, hval]
      simp only [memberContrib, List.map_cons, List.sum_cons]
      ring
    · simp only [setV, if_neg hk, memberContrib, List.map_cons, List.sum_cons]
      have hv : valD ((k', v') :: t) k = valD t k := by
        simp [valD, getV, hk]
      rw [hv]
      have := ih
      simp only [memberContrib] at this
      rw [this]
      ring

theorem obStep_memberContrib (m : AList (String × String))
    (ob : PairwiseObligation) (u : String) :
    memberContrib (obStep m ob) u =
      memberContrib m u + entryContrib (ob.debtor, ob.creditor) ob.amount u := by
  obtain ⟨d, c, x⟩ := ob
  unfold obStep
  dsimp only
  by_cases hab : d = c
  · -- diagonal: key and reverse key coincide, all contributions vanish
    subst hab
    split_ifs <;>
      simp [memberContrib_setV, valD_setV, entryContrib_diag]
  · have hkey : ((c, d) : String × String) ≠ (d, c) := by
      intro h
      rw [Prod.mk.injEq] at h
      exact hab h.2
    split_ifs with h1 h2
    · -- reverse balance fully absorbs the obligation
      rw [memberContrib_setV, entryContrib_sub, entryContrib_swap c d]
      ring
    · -- reverse balance partially absorbs; remainder goes on the forward key
      rw [memberContrib_setV, memberContrib_setV, valD_setV, if_neg hkey,
        entryContrib_zero, entryContrib_add, entryContrib_sub, entryContrib_swap d c]
      ring
    · -- no reverse balance: plain accumulation on the forward key
      rw [memberContrib_setV, entryContrib_add]
      ring

theorem foldl_obStep_memberContrib (obs : List PairwiseObligation) (u : String) :
    ∀ m : AList (String × String),
      memberContrib (obs.foldl obStep m) u = memberContrib m u + directSigned obs u := by
  induction obs with
  | nil => intro m; simp [directSigned]
  | cons ob t ih =>
    intro m
    rw [List.foldl_cons, ih, obStep_memberContrib]
    have hd : directSigned (ob :: t) u =
        entryContrib (ob.debtor, ob.creditor) ob.amount u + directSigned t u := by
      simp only [directSigned, List.map_cons, List.sum_cons, entryContrib]
    rw [hd]
    ring

theorem netPairs_memberContrib (obs : List PairwiseObligation) (u : String) :
    memberContrib (netPairs obs) u = directSigned obs u := by
  unfold netPairs
  rw [foldl_obStep_memberContrib, memberContrib_nil, zero_add]

theorem valD_simplifyStep (m : AList String) (b : UserBalance) (u : String) :
    valD (simplifyStep m b) u =
      valD m u + ((if b.to_user = u then b.owes else 0) -
        (if b.from_user = u then b.owes else 0)) := by
  obtain ⟨f, tu, w⟩ := b
  unfold simplifyStep
  dsimp only
  set m1 := if (getV m f).isSome then m else setV m f 0 with hm1
  set m2 := if (getV m1 tu).isSome then m1 else setV m1 tu 0 with hm2
  have h1 : ∀ x, valD m1 x = valD m x := by
    intro x
    rw [hm1]
    split
    · rfl
    · rename_i hno
      rw [valD_setV]
      split_ifs with hfx
      · subst hfx
        exact (valD_not_isSome (Bool.not_eq_true _ ▸ hno)).symm
      · rfl
  have h2 : ∀ x, valD m2 x = valD m x := by
    intro x
    rw [hm2]
    split
    · exact h1 x
    · rename_i hno
      rw [valD_setV]
      split_ifs with htx
      · subst htx
        rw [← h1 tu]
        exact (valD_not_isSome (Bool.not_eq_true _ ▸ hno)).symm
      · exact h1 x
  simp only [valD_setV, h2]
  split_ifs <;> simp_all <;> ring

theorem valD_foldl_simplifyStep (rows : List UserBalance) :
    ∀ (m : AList String) (u : String),
      valD (rows.foldl simplifyStep m) u = valD m u + rowsSigned rows u := by
  induction rows with
  | nil => intro m u; simp [rowsSigned]
  | cons b t ih =>
    intro m u
    rw [List.foldl_cons, ih, valD_simplifyStep]
    simp only [rowsSigned, List.map_cons, List.sum_cons]
    ring

theorem rowsSigned_toRows (m : AList (String × String)) (u : String) :
    rowsSigned (toRows m) u = memberContrib m u := by
  simp only [rowsSigned, toRows, memberContrib, List.map_map]
  rfl

/-- C6.  Refinement equivalence: for every obligation list, first performing
the incremental pairwise netting of `getGroupBalances` (`netPairs`, the
reverse-key absorption) and then accumulating signed per-member totals with
`simplifyBalances`' accumulation loop yields exactly the same final net
balance for every member as direct signed accumulation (`directSigned`) of
the raw obligations without the netting step. -/
theorem netting_then_accumulate_eq_direct (obs : List PairwiseObligation)
    (u : String) :
    valD (simplifyAccum (toRows (netPairs obs))) u = directSigned obs u := by
  unfold simplifyAccum
  rw [valD_foldl_simplifyStep, valD_nil, zero_add, rowsSigned_toRows,
    netPairs_memberContrib]

/-! ### validateCashFlow -/

theorem foldl_add_sub_cancel (ts : List DebtFlow) :
    ∀ a : ℚ, ts.foldl (fun sum t => sum + t.amount - t.amount) a = a := by
  induction ts with
  | nil => intro a; rfl
  | cons t ts ih =>
    intro a
    rw [List.foldl_cons, ih]
    ring

theorem validateCashFlow_eq (bs : List SimplifiedBalance) (ts : List DebtFlow) :
    validateCashFlow bs ts =
      decide (|bs.foldl (fun sum b => sum + b.net_amount) 0| < tol) := by
  unfold validateCashFlow
  dsimp only
  rw [foldl_add_sub_cancel]
  have h0 : (0 : ℚ) < tol := by norm_num [tol]
  simp [h0]

/-- C10.  `validateCashFlow` ignores its transactions argument: its
transaction total adds and subtracts each amount and is identically zero, so
the result is true exactly when the absolute value of the sum of the original
net balances is below `0.01`, whatever the transactions are. -/
theorem validateCashFlow_ignores_transactions (bs : List SimplifiedBalance)
    (ts ts' : List DebtFlow) :
    validateCashFlow bs ts =
      decide (|bs.foldl (fun sum b => sum + b.net_amount) 0| < tol) ∧
    validateCashFlow bs ts = validateCashFlow bs ts' :=
  ⟨validateCashFlow_eq bs ts, (validateCashFlow_eq bs ts).trans (validateCashFlow_eq bs ts').symm⟩

/-! ### Input validation (C7) -/

/-- C7 counterexample.  An expense whose single split (7) does not sum to
its total (10) — a data error well beyond the tolerance — still produces a
balance row: `getGroupBalances` performs no validation and has no failure
channel, contradicting the claim that the engine reports a validation
failure for such an expense instead of producing a balance from it.  (No
negative-share check exists anywhere either.) -/
theorem engine_produces_balance_from_invalid_expense :
    getGroupBalances [⟨10, "A", [⟨"B", 7⟩]⟩] = [⟨"B", "A", 7⟩] ∧
    |(([(⟨"B", 7⟩ : Split)].map Split.share_amount).sum - (10 : ℚ))| > tol := by
  constructor
  · norm_num +decide [getGroupBalances, getGroupBalancesMap, gbStep, getV, setV,
      valD, round2, tol, List.filterMap_cons]
  · norm_num [tol]

/-- C7 (amended).  The engine reports no validation failure: it computes a
balance row even from an expense whose splits do not sum to its total (third
conjunct, the counterexample's expense).  The claim's two trigger conditions
are checked upstream of the engine instead: the expense form's custom-split
branch rejects (with the error `Split amounts must equal total expense`)
exactly when the entered amounts differ from the expense total by more than
`0.01` (first conjunct), and the `expense_splits` schema's
`CHECK (share_amount >= 0)` makes the `createSplits` insert fail — the
thrown error reaching the caller — exactly when some share amount is
negative (second conjunct). -/
theorem validation_location_spec :
    (∀ (amountNum : ℚ) (customSplits : List (String × ℚ)),
      (customSplitsCheck amountNum customSplits).isNone =
        decide (|(customSplits.map Prod.snd).sum - amountNum| > tol)) ∧
    (∀ splits : List Split,
      (createSplits splits).isNone = decide (∃ s ∈ splits, s.share_amount < 0)) ∧
    getGroupBalances [⟨10, "A", [⟨"B", 7⟩]⟩] = [⟨"B", "A", 7⟩] := by
  refine ⟨?_, ?_, ?_⟩
  · intro amountNum customSplits
    unfold customSplitsCheck
    dsimp only
    split_ifs with h
    · simp [h]
    · simp [h]
  · intro splits
    unfold createSplits
    split_ifs with h
    · have hno : ¬∃ s ∈ splits, s.share_amount < 0 := by
        simp only [List.all_eq_true, decide_eq_true_eq] at h
        push_neg
        exact fun s hs => h s hs
      simp [hno]
    · have hyes : ∃ s ∈ splits, s.share_amount < 0 := by
        simp only [List.all_eq_true, decide_eq_true_eq] at h
        push_neg at h
        exact h
      simp [hyes]
  · norm_num +decide [getGroupBalances, getGroupBalancesMap, gbStep, getV, setV,
      valD, round2, tol, List.filterMap_cons]

/-! ### Netter rounding and zero-dropping (C8) -/

/-- C8 counterexample.  `simplifyBalances` does not drop members whose
balance is below the tolerance: two rows that cancel leave both members in
its output with net balance `0`, whose absolute value is below `0.01`. -/
theorem simplifyBalances_keeps_zero_balance :
    (⟨"A", 0⟩ : SimplifiedBalance) ∈ simplifyBalances [⟨"A", "B", 5⟩, ⟨"B", "A", 5⟩] ∧
    |(0 : ℚ)| < tol := by
  constructor
  · norm_num +decide [simplifyBalances, simplifyAccum, simplifyStep, getV, setV,
      valD, round2]
  · norm_num [tol]

/-- C8 (amended).  Every net balance returned by `simplifyBalances` is
rounded to two decimal places (it is a fixed point of `round2`), but
`simplifyBalances` retains below-tolerance members; the dropping of balances
with `|net| ≤ 0.01` is done by the UI-level `calculateSimplifiedBalances`,
whose every output balance exceeds the tolerance in absolute value. -/
theorem netter_rounds_and_ui_drops :
    (∀ (rows : List UserBalance) (b : SimplifiedBalance),
      b ∈ simplifyBalances rows → round2 b.net_amount = b.net_amount) ∧
    (∀ (raw : List UserBalance) (members : List GroupMember) (cur : String)
      (b : SimplifiedBalance),
      b ∈ calculateSimplifiedBalances raw members cur → |b.net_amount| > tol) := by
  constructor
  · intro rows b hb
    unfold simplifyBalances at hb
    rcases List.mem_map.mp hb with ⟨kv, _, rfl⟩
    exact round2_eq_self (cent_round2 kv.2)
  · intro raw members cur b hb
    unfold calculateSimplifiedBalances at hb
    have h := List.mem_filter.mp hb
    exact of_decide_eq_true h.2

/-- Closed instance of `netter_rounds_and_ui_drops` at concrete inputs. -/
theorem netter_rounds_and_ui_drops_witness :
    round2 ((⟨"A", -5⟩ : SimplifiedBalance).net_amount) =
      (⟨"A", -5⟩ : SimplifiedBalance).net_amount ∧
    |(⟨"A", -5⟩ : SimplifiedBalance).net_amount| > tol := by
  constructor
  · exact netter_rounds_and_ui_drops.1 [⟨"A", "B", 5⟩] ⟨"A", -5⟩
      (by norm_num +decide [simplifyBalances, simplifyAccum, simplifyStep, getV,
        setV, valD, round2])
  · exact netter_rounds_and_ui_drops.2 [⟨"A", "B", 5⟩] [⟨"A"⟩, ⟨"B"⟩] "B" ⟨"A", -5⟩
      (by norm_num +decide [calculateSimplifiedBalances, getV, setV, valD, tol,
        abs, max_def, List.filter_cons, decide_eq_true_eq])

/-! ### List helpers for the settlement loop -/

theorem getD_set_ne {α : Type} (l : List α) (i j : ℕ) (a d : α)
    (hne : i ≠ j) : (l.set i a).getD j d = l.getD j d := by
  simp [List.getD_eq_getElem?_getD, List.getElem?_set_ne hne]

theorem getD_set_eq {α : Type} (l : List α) (i : ℕ) (a d : α)
    (h : i < l.length) : (l.set i a).getD i d = a := by
  simp [List.getD_eq_getElem?_getD, List.getElem?_set_eq_of_lt _ h]

theorem set_self {α : Type} (l : List α) (i : ℕ) (h : i < l.length) :
    l.set i l[i] = l := by
  apply List.ext_getElem
  · simp
  · intro n h1 h2
    rw [List.getElem_set]
    split
    · rename_i hin; subst hin; rfl
    · rfl

theorem eraseIdx_map {α β : Type} (f : α → β) (l : List α) (i : ℕ) :
    (l.eraseIdx i).map f = (l.map f).eraseIdx i := by
  induction l generalizing i with
  | nil => rfl
  | cons a t ih =>
    cases i with
    | zero => rfl
    | succ i => simp [List.eraseIdx, ih]

theorem findIdxQ_exists {α : Type} (p : α → Bool) :
    ∀ (l : List α) (s : ℕ), (∃ b ∈ l, p b = true) →
      ∃ j, List.findIdx? p l s = some j ∧ s ≤ j ∧ j - s < l.length := by
  intro l
  induction l with
  | nil => intro s h; simp at h
  | cons a t ih =>
    intro s h
    by_cases hpa : p a = true
    · exact ⟨s, by simp [List.findIdx?, hpa], le_refl s, by simp⟩
    · obtain ⟨b, hb, hpb⟩ := h
      have hbt : b ∈ t := by
        rcases List.mem_cons.mp hb with rfl | hbt
        · exact absurd hpb hpa
        · exact hbt
      obtain ⟨j, hj, hsj, hjl⟩ := ih (s + 1) ⟨b, hbt, hpb⟩
      refine ⟨j, ?_, by omega, by simp; omega⟩
      simp only [List.findIdx?]
      rw [if_neg hpa]
      exact hj

theorem getD_mem_eraseIdx {α : Type} (d : α) :
    ∀ (l : List α) (i j : ℕ), j < l.length → i ≠ j →
      l.getD j d ∈ l.eraseIdx i := by
  intro l
  induction l with
  | nil => intro i j hj _; simp at hj
  | cons a t ih =>
    intro i j hj hij
    cases i with
    | zero =>
      cases j with
      | zero => exact absurd rfl hij
      | succ j =>
        simp only [List.eraseIdx]
        have : (a :: t).getD (j + 1) d = t.getD j d := rfl
        rw [this, List.getD_eq_getElem t d (by simpa using hj)]
        exact List.getElem_mem _
    | succ i =>
      cases j with
      | zero => exact List.mem_cons_self _ _
      | succ j =>
        simp only [List.eraseIdx]
        have : (a :: t).getD (j + 1) d = t.getD j d := rfl
        rw [this]
        exact List.mem_cons_of_mem _ (ih i j (by simpa using hj) (by omega))

/-! ### The extremal scans of `calculateMinCashFlow` -/

theorem bestIdxAux_spec (cmp : ℚ → ℚ → Bool) (r : ℚ → ℚ → Prop)
    (hcmp : ∀ x y, cmp x y = true ↔ r x y)
    (hasymm : ∀ a b, r a b → ¬r b a)
    (hext : ∀ {a b c}, ¬r a b → r c b → r c a)
    (vs : List ℚ) :
    ∀ (t : List ℚ) (i best : ℕ) (bv : ℚ),
      best < i → i + t.length = vs.length → vs.drop i = t →
      vs.getD best 0 = bv →
      (∀ j, j < i → ¬r (vs.getD j 0) bv) →
      (∀ j, j < best → r bv (vs.getD j 0)) →
      bestIdxAux cmp t i bv best < vs.length ∧
      (∀ j, j < vs.length →
        ¬r (vs.getD j 0) (vs.getD (bestIdxAux cmp t i bv best) 0)) ∧
      (∀ j, j < bestIdxAux cmp t i bv best →
        r (vs.getD (bestIdxAux cmp t i bv best) 0) (vs.getD j 0)) := by
  intro t
  induction t with
  | nil =>
    intro i best bv hbi hlen _ hbv h4 h5
    simp only [bestIdxAux]
    have hil : i = vs.length := by simpa using hlen
    refine ⟨by omega, ?_, ?_⟩
    · intro j hj
      rw [hbv]
      exact h4 j (by omega)
    · intro j hj
      rw [hbv]
      exact h5 j hj
  | cons v t' ih =>
    intro i best bv hbi hlen hdrop hbv h4 h5
    have hiv : vs.getD i 0 = v := by
      have h0 : vs[i]? = some v := by
        have hd := List.getElem?_drop vs i 0
        rw [hdrop] at hd
        simpa using hd.symm
      simp [List.getD_eq_getElem?_getD, h0]
    have hdrop' : vs.drop (i + 1) = t' := by
      have h1 : vs.drop (i + 1) = (vs.drop i).drop 1 := by
        rw [List.drop_drop, Nat.add_comm]
      rw [h1, hdrop]
      rfl
    simp only [bestIdxAux]
    by_cases hc : cmp v bv = true
    · rw [if_pos hc]
      have hrv : r v bv := (hcmp v bv).mp hc
      apply ih (i + 1) i v (by omega) (by simp at hlen ⊢; omega) hdrop' hiv
      · intro j hj
        by_cases hji : j < i
        · exact hasymm _ _ (hext (h4 j hji) hrv)
        · have : j = i := by omega
          subst this
          rw [hiv]
          exact fun hcon => hasymm _ _ hcon hcon
      · intro j hj
        exact hext (h4 j hj) hrv
    · rw [if_neg hc]
      have hnrv : ¬r v bv := fun hr => hc ((hcmp v bv).mpr hr)
      apply ih (i + 1) best bv (by omega) (by simp at hlen ⊢; omega) hdrop' hbv
      · intro j hj
        by_cases hji : j < i
        · exact h4 j hji
        · have : j = i := by omega
          subst this
          rw [hiv]
          exact hnrv
      · exact h5

theorem bestIdx_gtB_spec (vs : List ℚ) (hne : vs ≠ []) :
    bestIdx gtB vs < vs.length ∧
    (∀ j, j < vs.length → vs.getD j 0 ≤ vs.getD (bestIdx gtB vs) 0) ∧
    (∀ j, j < bestIdx gtB vs → vs.getD j 0 < vs.getD (bestIdx gtB vs) 0) := by
  match vs, hne with
  | v :: t, _ =>
    have h := bestIdxAux_spec gtB (fun x y => y < x)
      (fun x y => by simp [gtB]) (fun a b => by intro h1 h2; exact absurd h1 (lt_asymm h2))
      (fun {a b c} h1 h2 => lt_of_le_of_lt (le_of_not_lt h1) h2)
      (v :: t) t 1 0 v (by omega) (by simp; omega) (by simp) (by simp)
      (fun j hj => by
        interval_cases j
        simp)
      (fun j hj => by omega)
    refine ⟨h.1, fun j hj => le_of_not_lt (h.2.1 j hj), fun j hj => h.2.2 j hj⟩

theorem bestIdx_ltB_spec (vs : List ℚ) (hne : vs ≠ []) :
    bestIdx ltB vs < vs.length ∧
    (∀ j, j < vs.length → vs.getD (bestIdx ltB vs) 0 ≤ vs.getD j 0) ∧
    (∀ j, j < bestIdx ltB vs → vs.getD (bestIdx ltB vs) 0 < vs.getD j 0) := by
  match vs, hne with
  | v :: t, _ =>
    have h := bestIdxAux_spec ltB (fun x y => x < y)
      (fun x y => by simp [ltB]) (fun a b => by intro h1 h2; exact absurd h1 (lt_asymm h2))
      (fun {a b c} h1 h2 => lt_of_lt_of_le h2 (le_of_not_lt h1))
      (v :: t) t 1 0 v (by omega) (by simp; omega) (by simp) (by simp)
      (fun j hj => by
        interval_cases j
        simp)
      (fun j hj => by omega)
    refine ⟨h.1, fun j hj => le_of_not_lt (h.2.1 j hj), fun j hj => h.2.2 j hj⟩

/-! ### One iteration of the settlement loop -/

theorem round2_pos {q : ℚ} (h : tol < q) : 0 < round2 q := by
  unfold round2
  unfold tol at h
  have h1 : (1 : ℤ) ≤ ⌊q * 100 + 1/2⌋ := by
    rw [Int.le_floor]
    push_cast
    linarith
  have h2 : (0 : ℚ) < (⌊q * 100 + 1/2⌋ : ℚ) := by exact_mod_cast lt_of_lt_of_le zero_lt_one h1
  positivity

/-- Everything one emitting iteration of the `while` loop guarantees: the
selected creditor is strictly above the tolerance and the selected debtor
strictly below its negation; the emitted transaction goes from the debtor's
user id to the creditor's user id with the settlement amount rounded to two
decimals; the active list strictly shrinks; and the surviving user ids form a
sublist of the previous ones. -/
theorem cmfIter_some_spec {bs : List SimplifiedBalance} {tx : DebtFlow}
    {bs' : List SimplifiedBalance} (h : cmfIter bs = some (tx, bs')) :
    tol < (bs.getD (bestIdx gtB (bs.map SimplifiedBalance.net_amount)) dflt).net_amount ∧
    (bs.getD (bestIdx ltB (bs.map SimplifiedBalance.net_amount)) dflt).net_amount < -tol ∧
    tx = ⟨(bs.getD (bestIdx ltB (bs.map SimplifiedBalance.net_amount)) dflt).user_id,
          (bs.getD (bestIdx gtB (bs.map SimplifiedBalance.net_amount)) dflt).user_id,
          round2 (min
            (bs.getD (bestIdx gtB (bs.map SimplifiedBalance.net_amount)) dflt).net_amount
            |(bs.getD (bestIdx ltB (bs.map SimplifiedBalance.net_amount)) dflt).net_amount|)⟩ ∧
    bs'.length < bs.length ∧
    (bs'.map SimplifiedBalance.user_id).Sublist (bs.map SimplifiedBalance.user_id) ∧
    bestIdx gtB (bs.map SimplifiedBalance.net_amount) < bs.length ∧
    bestIdx ltB (bs.map SimplifiedBalance.net_amount) < bs.length ∧
    bestIdx gtB (bs.map SimplifiedBalance.net_amount) ≠
      bestIdx ltB (bs.map SimplifiedBalance.net_amount) := by
  unfold cmfIter at h
  dsimp only at h
  set ci := bestIdx gtB (bs.map SimplifiedBalance.net_amount) with hci
  set di := bestIdx ltB (bs.map SimplifiedBalance.net_amount) with hdi
  set creditor := bs.getD ci dflt with hcred
  set debtor := bs.getD di dflt with hdeb
  set s := min creditor.net_amount |debtor.net_amount| with hs
  split at h
  · exact Option.noConfusion h
  · rename_i hguard
    rw [Option.some.injEq, Prod.mk.injEq] at h
    obtain ⟨htx, hbs4⟩ := h
    push_neg at hguard
    obtain ⟨hc, hd⟩ := hguard
    have hlen0 : 0 < bs.length := by
      rcases bs with _ | ⟨b, bt⟩
      · exfalso
        rw [hcred] at hc
        norm_num [List.getD, dflt, tol] at hc
      · simp
    have hvs : bs.map SimplifiedBalance.net_amount ≠ [] := by
      intro hcon
      rw [List.map_eq_nil_iff] at hcon
      rw [hcon] at hlen0
      simp at hlen0
    have hspecG := bestIdx_gtB_spec _ hvs
    have hspecL := bestIdx_ltB_spec _ hvs
    have hciL : ci < bs.length := by
      have := hspecG.1
      rwa [List.length_map, ← hci] at this
    have hdiL : di < bs.length := by
      have := hspecL.1
      rwa [List.length_map, ← hdi] at this
    have hcd : ci ≠ di := by
      intro hcon
      rw [hcred, hcon, ← hdeb] at hc
      have := lt_trans hc hd
      norm_num [tol] at this
    set bs1 := bs.set ci ⟨creditor.user_id, creditor.net_amount - s⟩ with hbs1
    set debtor1 := bs1.getD di dflt with hdeb1
    set bs2 := bs1.set di ⟨debtor1.user_id, debtor1.net_amount + s⟩ with hdebs2
    have hd1 : debtor1 = debtor := by
      rw [hdeb1, hbs1, getD_set_ne _ _ _ _ _ hcd, ← hdeb]
    have hlen1 : bs1.length = bs.length := by rw [hbs1, List.length_set]
    have hlen2 : bs2.length = bs.length := by rw [hdebs2, List.length_set, hlen1]
    have hcf : bs2.getD ci dflt = ⟨creditor.user_id, creditor.net_amount - s⟩ := by
      rw [hdebs2, getD_set_ne _ _ _ _ _ (Ne.symm hcd), hbs1,
        getD_set_eq _ _ _ _ hciL]
    have hdf : bs2.getD di dflt = ⟨debtor.user_id, debtor.net_amount + s⟩ := by
      rw [hdebs2, getD_set_eq _ _ _ _ (by rw [hlen1]; exact hdiL), hd1]
    have hdneg : debtor.net_amount < 0 := lt_trans hd (by norm_num [tol])
    have hmin : creditor.net_amount - s = 0 ∨ debtor.net_amount + s = 0 := by
      rw [hs, abs_of_neg hdneg]
      rcases le_total creditor.net_amount (-debtor.net_amount) with hle | hle
      · left; rw [min_eq_left hle]; ring
      · right; rw [min_eq_right hle]; ring
    set bs3 := if |(bs2.getD ci dflt).net_amount| ≤ tol then bs2.eraseIdx ci else bs2
      with hbs3
    have hb3le : bs3.length ≤ bs.length := by
      rw [hbs3]
      split
      · calc (bs2.eraseIdx ci).length ≤ bs2.length := List.length_eraseIdx_le _ _
          _ = bs.length := hlen2
      · exact le_of_eq hlen2
    have hb3ge : bs.length - 1 ≤ bs3.length := by
      rw [hbs3]
      split
      · rw [List.length_eraseIdx_of_lt (by rw [hlen2]; exact hciL), hlen2]
      · rw [hlen2]; omega
    have htwo : 2 ≤ bs.length := by
      by_contra hcon
      push_neg at hcon
      have h1 : ci = 0 := Nat.lt_one_iff.mp (lt_of_lt_of_le hciL (by omega))
      have h2 : di = 0 := Nat.lt_one_iff.mp (lt_of_lt_of_le hdiL (by omega))
      exact hcd (h1.trans h2.symm)
    refine ⟨hc, hd, htx.symm, ?_, ?_, hciL, hdiL, hcd⟩
    · -- strict length decrease
      rcases hmin with h0 | h0
      · -- the creditor's balance reaches exactly zero and is spliced out
        have hcond : |(bs2.getD ci dflt).net_amount| ≤ tol := by
          rw [hcf]
          show |creditor.net_amount - s| ≤ tol
          rw [h0]
          norm_num [tol]
        have hb3 : bs3.length = bs.length - 1 := by
          rw [hbs3, if_pos hcond, List.length_eraseIdx_of_lt (by rw [hlen2]; exact hciL),
            hlen2]
        split at hbs4
        · split at hbs4
          · rename_i j hfound
            rw [← hbs4]
            have hle := List.length_eraseIdx_le bs3 j
            omega
          · rw [← hbs4]
            omega
        · rw [← hbs4]
          omega
      · -- the debtor's balance reaches exactly zero and is found and spliced
        have hdcond : |(bs2.getD di dflt).net_amount| ≤ tol := by
          rw [hdf]
          show |debtor.net_amount + s| ≤ tol
          rw [h0]
          norm_num [tol]
        have hb3ne : ¬bs3.length = 0 := by omega
        have hmem : bs2.getD di dflt ∈ bs3 := by
          rw [hbs3]
          split
          · exact getD_mem_eraseIdx dflt bs2 ci di (by rw [hlen2]; exact hdiL) hcd
          · rw [List.getD_eq_getElem _ _ (by rw [hlen2]; exact hdiL)]
            exact List.getElem_mem _
        obtain ⟨j, hj, -, hjlen⟩ := findIdxQ_exists
          (fun b => b.user_id = debtor.user_id) bs3 0
          ⟨bs2.getD di dflt, hmem, by rw [hdf]; simp⟩
        rw [if_pos ⟨hdcond, hb3ne⟩, hj] at hbs4
        rw [← hbs4]
        have : (bs3.eraseIdx j).length = bs3.length - 1 :=
          List.length_eraseIdx_of_lt (by omega)
        rw [this]
        omega
    · -- surviving ids are a sublist of the original ids
      have hids1 : bs1.map SimplifiedBalance.user_id = bs.map SimplifiedBalance.user_id := by
        rw [hbs1, List.map_set]
        have hcim : ci < (bs.map SimplifiedBalance.user_id).length := by
          rw [List.length_map]
          exact hciL
        have hgc : creditor.user_id = (bs.map SimplifiedBalance.user_id)[ci] := by
          rw [List.getElem_map, hcred, List.getD_eq_getElem _ _ hciL]
        rw [hgc]
        exact set_self _ _ hcim
      have hids2 : bs2.map SimplifiedBalance.user_id = bs.map SimplifiedBalance.user_id := by
        rw [hdebs2, List.map_set]
        have hdim : di < (bs1.map SimplifiedBalance.user_id).length := by
          rw [List.length_map, hlen1]
          exact hdiL
        have hgd : debtor1.user_id = (bs1.map SimplifiedBalance.user_id)[di] := by
          rw [List.getElem_map, hdeb1, List.getD_eq_getElem _ _ (by rw [hlen1]; exact hdiL)]
        rw [hgd, set_self _ _ hdim, hids1]
      have hsub3 : (bs3.map SimplifiedBalance.user_id).Sublist
          (bs2.map SimplifiedBalance.user_id) := by
        rw [hbs3]
        split
        · rw [eraseIdx_map]
          exact List.eraseIdx_sublist _ _
        · exact List.Sublist.refl _
      have hsub4 : (bs'.map SimplifiedBalance.user_id).Sublist
          (bs3.map SimplifiedBalance.user_id) := by
        rw [← hbs4]
        split
        · rcases hfi : bs3.findIdx? (fun b => b.user_id = debtor.user_id) with _ | j
          · simp only [hfi]
            exact List.Sublist.refl _
          · simp only [hfi]
            rw [eraseIdx_map]
            exact List.eraseIdx_sublist _ _
        · exact List.Sublist.refl _
      exact hsub4.trans (hids2 ▸ hsub3)

/-! ### The settlement loop: termination, bound, invariants -/

theorem cmfLoop_isSome (fuel : ℕ) :
    ∀ (bs : List SimplifiedBalance) (acc : List DebtFlow),
      bs.length ≤ fuel + 1 → (cmfLoop fuel bs acc).isSome = true := by
  induction fuel with
  | zero =>
    intro bs acc hle
    rw [cmfLoop, if_pos (by omega)]
    rfl
  | succ f ih =>
    intro bs acc hle
    rw [cmfLoop]
    by_cases h1 : bs.length ≤ 1
    · rw [if_pos h1]
      rfl
    · rw [if_neg h1, if_neg (by omega : ¬(f + 1 = 0))]
      cases hit : cmfIter bs with
      | none => rfl
      | some p =>
        obtain ⟨tx, bs'⟩ := p
        have hlen := (cmfIter_some_spec hit).2.2.2.1
        simp only [Nat.add_sub_cancel]
        exact ih bs' (acc ++ [tx]) (by omega)

theorem cmfLoop_length_le (fuel : ℕ) :
    ∀ (bs : List SimplifiedBalance) (acc : List DebtFlow) (r : List DebtFlow),
      cmfLoop fuel bs acc = some r → r.length ≤ acc.length + (bs.length - 1) := by
  induction fuel with
  | zero =>
    intro bs acc r h
    rw [cmfLoop] at h
    split at h
    · obtain rfl := Option.some.inj h
      omega
    · rw [if_pos rfl] at h
      exact Option.noConfusion h
  | succ f ih =>
    intro bs acc r h
    rw [cmfLoop] at h
    split at h
    · rename_i h1
      obtain rfl := Option.some.inj h
      omega
    · rename_i h1
      rw [if_neg (by omega : ¬(f + 1 = 0))] at h
      cases hit : cmfIter bs with
      | none =>
        rw [hit] at h
        obtain rfl := Option.some.inj h
        omega
      | some p =>
        obtain ⟨tx, bs'⟩ := p
        rw [hit] at h
        simp only [Nat.add_sub_cancel] at h
        have hlen := (cmfIter_some_spec hit).2.2.2.1
        have := ih bs' (acc ++ [tx]) r h
        rw [List.length_append] at this
        simp at this
        omega

theorem cmfLoop_fuel_eq (f : ℕ) :
    ∀ (g : ℕ) (bs : List SimplifiedBalance) (acc : List DebtFlow),
      bs.length ≤ f + 1 → f ≤ g → cmfLoop f bs acc = cmfLoop g bs acc := by
  induction f with
  | zero =>
    intro g bs acc hle _
    rw [cmfLoop, if_pos (by omega), cmfLoop, if_pos (by omega)]
  | succ f ih =>
    intro g bs acc hle hfg
    by_cases h1 : bs.length ≤ 1
    · rw [cmfLoop, if_pos h1, cmfLoop, if_pos h1]
    · rw [cmfLoop, if_neg h1, cmfLoop, if_neg h1,
        if_neg (by omega : ¬(f + 1 = 0)), if_neg (by omega : ¬(g = 0))]
      cases hit : cmfIter bs with
      | none => rfl
      | some p =>
        obtain ⟨tx, bs'⟩ := p
        have hlen := (cmfIter_some_spec hit).2.2.2.1
        simp only [Nat.add_sub_cancel]
        exact ih (g - 1) bs' (acc ++ [tx]) (by omega) (by omega)

/-- C3.  Termination and transaction-count bound: with `n` the number of
members whose initial balance exceeds the tolerance in absolute value, the
loop of `calculateMinCashFlow` completes within `n - 1` iterations (running
it with an iteration budget of `n - 1` succeeds and already yields the
final result), and the returned plan has at most `n - 1` transactions. -/
theorem cmf_terminates_within_bound (balances : List SimplifiedBalance) :
    (cmfLoop ((balances.filter fun b => |b.net_amount| > tol).length - 1)
        (balances.filter fun b => |b.net_amount| > tol) []).isSome = true ∧
    cmfLoop ((balances.filter fun b => |b.net_amount| > tol).length - 1)
        (balances.filter fun b => |b.net_amount| > tol) [] =
      some (calculateMinCashFlow balances) ∧
    (calculateMinCashFlow balances).length ≤
      (balances.filter fun b => |b.net_amount| > tol).length - 1 := by
  set nz := balances.filter fun b => |b.net_amount| > tol with hnz
  have h1 : (cmfLoop (nz.length - 1) nz []).isSome = true :=
    cmfLoop_isSome _ _ _ (by omega)
  have heq : cmfLoop (nz.length - 1) nz [] = cmfLoop nz.length nz [] :=
    cmfLoop_fuel_eq _ _ _ _ (by omega) (by omega)
  obtain ⟨r, hr⟩ := Option.isSome_iff_exists.mp (heq ▸ h1)
  have hcmf : calculateMinCashFlow balances = r := by
    unfold calculateMinCashFlow
    dsimp only
    rw [← hnz, hr]
    rfl
  refine ⟨h1, ?_, ?_⟩
  · rw [heq, hr, hcmf]
  · rw [hcmf]
    have := cmfLoop_length_le nz.length nz [] r hr
    simpa using this

theorem cmfLoop_wellformed (fuel : ℕ) :
    ∀ (bs : List SimplifiedBalance) (acc r : List DebtFlow),
      (bs.map SimplifiedBalance.user_id).Nodup →
      (∀ t ∈ acc, 0 < t.amount ∧ t.fromUser ≠ t.toUser) →
      cmfLoop fuel bs acc = some r →
      ∀ t ∈ r, 0 < t.amount ∧ t.fromUser ≠ t.toUser := by
  induction fuel with
  | zero =>
    intro bs acc r _ hacc h
    rw [cmfLoop] at h
    split at h
    · obtain rfl := Option.some.inj h
      exact hacc
    · rw [if_pos rfl] at h
      exact Option.noConfusion h
  | succ f ih =>
    intro bs acc r hnd hacc h
    rw [cmfLoop] at h
    split at h
    · obtain rfl := Option.some.inj h
      exact hacc
    · rw [if_neg (by omega : ¬(f + 1 = 0))] at h
      cases hit : cmfIter bs with
      | none =>
        rw [hit] at h
        obtain rfl := Option.some.inj h
        exact hacc
      | some p =>
        obtain ⟨tx, bs'⟩ := p
        rw [hit] at h
        simp only [Nat.add_sub_cancel] at h
        set ci := bestIdx gtB (bs.map SimplifiedBalance.net_amount) with hci
        set di := bestIdx ltB (bs.map SimplifiedBalance.net_amount) with hdi
        obtain ⟨hc, hd, htx, -, hsub, hciL, hdiL, hcd⟩ := cmfIter_some_spec hit
        subst htx
        have hdneg : (bs.getD di dflt).net_amount < 0 :=
          lt_trans hd (by norm_num [tol])
        have hgood :
            0 < round2 (min (bs.getD ci dflt).net_amount
              |(bs.getD di dflt).net_amount|) ∧
            (bs.getD di dflt).user_id ≠ (bs.getD ci dflt).user_id := by
          refine ⟨?_, ?_⟩
          · apply round2_pos
            apply lt_min hc
            rw [abs_of_neg hdneg]
            have h01 : (0 : ℚ) < tol := by norm_num [tol]
            linarith
          · intro hcon
            have hci' : ci < (bs.map SimplifiedBalance.user_id).length := by
              rw [List.length_map]
              exact hciL
            have hdi' : di < (bs.map SimplifiedBalance.user_id).length := by
              rw [List.length_map]
              exact hdiL
            have heq : (bs.map SimplifiedBalance.user_id)[di] =
                (bs.map SimplifiedBalance.user_id)[ci] := by
              rw [List.getElem_map, List.getElem_map,
                ← List.getD_eq_getElem bs dflt hdiL, ← List.getD_eq_getElem bs dflt hciL]
              exact hcon
            exact hcd ((List.Nodup.getElem_inj_iff hnd).mp heq).symm
        apply ih bs' (acc ++ [_]) r (hsub.nodup hnd) ?_ h
        intro t ht
        rcases List.mem_append.mp ht with hta | htb
        · exact hacc t hta
        · rw [List.mem_singleton] at htb
          subst htb
          exact hgood

/-- C9 (amended).  Under the hypothesis that the input balance list carries
pairwise distinct user ids, every transaction returned by
`calculateMinCashFlow` has a strictly positive amount and distinct endpoint
members.  (Without the hypothesis the claim fails: see
`cmf_self_debt_on_duplicate_ids`.) -/
theorem cmf_transactions_wellformed (balances : List SimplifiedBalance)
    (hnd : (balances.map SimplifiedBalance.user_id).Nodup) :
    ∀ t ∈ calculateMinCashFlow balances, 0 < t.amount ∧ t.fromUser ≠ t.toUser := by
  set nz := balances.filter fun b => |b.net_amount| > tol with hnz
  have hndnz : (nz.map SimplifiedBalance.user_id).Nodup := by
    have hsub : nz.Sublist balances := List.filter_sublist _
    exact (hsub.map SimplifiedBalance.user_id).nodup hnd
  obtain ⟨r, hr⟩ :=
    Option.isSome_iff_exists.mp (cmfLoop_isSome nz.length nz [] (by omega))
  have hcmf : calculateMinCashFlow balances = r := by
    unfold calculateMinCashFlow
    dsimp only
    rw [← hnz, hr]
    rfl
  rw [hcmf]
  exact cmfLoop_wellformed nz.length nz [] r hndnz (by simp) hr

/-- Closed instance of `cmf_transactions_wellformed` at a concrete input. -/
theorem cmf_transactions_wellformed_witness :
    0 < (⟨"B", "A", (3 : ℚ)⟩ : DebtFlow).amount ∧
      (⟨"B", "A", (3 : ℚ)⟩ : DebtFlow).fromUser ≠
        (⟨"B", "A", (3 : ℚ)⟩ : DebtFlow).toUser := by
  have hmem : (⟨"B", "A", (3 : ℚ)⟩ : DebtFlow) ∈
      calculateMinCashFlow [⟨"A", 3⟩, ⟨"B", -3⟩] := by
    have hres : calculateMinCashFlow [⟨"A", 3⟩, ⟨"B", -3⟩] = [⟨"B", "A", 3⟩] := by
      norm_num +decide [calculateMinCashFlow, List.filter_cons, decide_eq_true_eq,
        tol, abs, max_def]
      repeat
        rw [cmfLoop]
        norm_num +decide [cmfIter, bestIdx, bestIdxAux, gtB, ltB, dflt, round2,
          tol, abs, max_def]
    rw [hres]
    exact List.mem_singleton_self _
  exact cmf_transactions_wellformed [⟨"A", 3⟩, ⟨"B", -3⟩] (by simp) _ hmem

/-- C9 counterexample.  On an input with a duplicated user id the loop can
pair a member with themself: the returned plan contains a transaction whose
`from` and `to` coincide, refuting the unconditional no-self-debt claim. -/
theorem cmf_self_debt_on_duplicate_ids :
    calculateMinCashFlow [⟨"A", 5⟩, ⟨"A", -5⟩] = [⟨"A", "A", 5⟩] ∧
    (⟨"A", "A", (5 : ℚ)⟩ : DebtFlow).fromUser = (⟨"A", "A", (5 : ℚ)⟩ : DebtFlow).toUser := by
  constructor
  · norm_num +decide [calculateMinCashFlow, List.filter_cons, decide_eq_true_eq,
      tol, abs, max_def]
    repeat
      rw [cmfLoop]
      norm_num +decide [cmfIter, bestIdx, bestIdxAux, gtB, ltB, dflt, round2,
        tol, abs, max_def]
  · rfl

/-- C5 (amended).  In every emitting iteration of the settlement loop the
selected creditor is the first member (in order) attaining the maximum
balance, the selected debtor the first attaining the minimum, the
transaction is directed from the debtor to the creditor, and its amount is
`min(creditor.balance, -debtor.balance)` rounded to two decimal places (the
rounding at emission is the only deviation from the claim as frozen; see
`cmf_emits_rounded_amount`). -/
theorem cmf_iteration_greedy_selection (bs : List SimplifiedBalance)
    (tx : DebtFlow) (bs' : List SimplifiedBalance)
    (h : cmfIter bs = some (tx, bs')) :
    tx = ⟨(bs.getD (bestIdx ltB (bs.map SimplifiedBalance.net_amount)) dflt).user_id,
          (bs.getD (bestIdx gtB (bs.map SimplifiedBalance.net_amount)) dflt).user_id,
          round2 (min
            (bs.getD (bestIdx gtB (bs.map SimplifiedBalance.net_amount)) dflt).net_amount
            (-(bs.getD (bestIdx ltB (bs.map SimplifiedBalance.net_amount)) dflt).net_amount))⟩ ∧
    (∀ j, j < bs.length →
      (bs.map SimplifiedBalance.net_amount).getD j 0 ≤
        (bs.map SimplifiedBalance.net_amount).getD
          (bestIdx gtB (bs.map SimplifiedBalance.net_amount)) 0) ∧
    (∀ j, j < bestIdx gtB (bs.map SimplifiedBalance.net_amount) →
      (bs.map SimplifiedBalance.net_amount).getD j 0 <
        (bs.map SimplifiedBalance.net_amount).getD
          (bestIdx gtB (bs.map SimplifiedBalance.net_amount)) 0) ∧
    (∀ j, j < bs.length →
      (bs.map SimplifiedBalance.net_amount).getD
          (bestIdx ltB (bs.map SimplifiedBalance.net_amount)) 0 ≤
        (bs.map SimplifiedBalance.net_amount).getD j 0) ∧
    (∀ j, j < bestIdx ltB (bs.map SimplifiedBalance.net_amount) →
      (bs.map SimplifiedBalance.net_amount).getD
          (bestIdx ltB (bs.map SimplifiedBalance.net_amount)) 0 <
        (bs.map SimplifiedBalance.net_amount).getD j 0) := by
  obtain ⟨hc, hd, htx, -, -, hciL, hdiL, -⟩ := cmfIter_some_spec h
  have hdneg : (bs.getD (bestIdx ltB (bs.map SimplifiedBalance.net_amount)) dflt).net_amount < 0 :=
    lt_trans hd (by norm_num [tol])
  have hvs : bs.map SimplifiedBalance.net_amount ≠ [] := by
    intro hcon
    rw [List.map_eq_nil_iff] at hcon
    rw [hcon] at hciL
    simp at hciL
  have hg := bestIdx_gtB_spec _ hvs
  have hl := bestIdx_ltB_spec _ hvs
  refine ⟨?_, ?_, hg.2.2, ?_, hl.2.2⟩
  · rw [htx, abs_of_neg hdneg]
  · intro j hj
    exact hg.2.1 j (by rw [List.length_map]; exact hj)
  · intro j hj
    exact hl.2.1 j (by rw [List.length_map]; exact hj)

/-- Closed instance of `cmf_iteration_greedy_selection` at a concrete input. -/
theorem cmf_iteration_greedy_selection_witness :
    (⟨"B", "A", (3 : ℚ)⟩ : DebtFlow) =
      ⟨(([(⟨"A", 3⟩ : SimplifiedBalance), ⟨"B", -3⟩]).getD
          (bestIdx ltB ([(⟨"A", 3⟩ : SimplifiedBalance), ⟨"B", -3⟩].map
            SimplifiedBalance.net_amount)) dflt).user_id,
        (([(⟨"A", 3⟩ : SimplifiedBalance), ⟨"B", -3⟩]).getD
          (bestIdx gtB ([(⟨"A", 3⟩ : SimplifiedBalance), ⟨"B", -3⟩].map
            SimplifiedBalance.net_amount)) dflt).user_id,
        round2 (min
          (([(⟨"A", 3⟩ : SimplifiedBalance), ⟨"B", -3⟩]).getD
            (bestIdx gtB ([(⟨"A", 3⟩ : SimplifiedBalance), ⟨"B", -3⟩].map
              SimplifiedBalance.net_amount)) dflt).net_amount
          (-(([(⟨"A", 3⟩ : SimplifiedBalance), ⟨"B", -3⟩]).getD
            (bestIdx ltB ([(⟨"A", 3⟩ : SimplifiedBalance), ⟨"B", -3⟩].map
              SimplifiedBalance.net_amount)) dflt).net_amount))⟩ := by
  have hit : cmfIter [(⟨"A", 3⟩ : SimplifiedBalance), ⟨"B", -3⟩] =
      some (⟨"B", "A", 3⟩, []) := by
    norm_num +decide [cmfIter, bestIdx, bestIdxAux, gtB, ltB, dflt, round2, tol,
      abs, max_def]
  exact (cmf_iteration_greedy_selection _ _ _ hit).1

/-- C5 counterexample.  The amount the loop emits is rounded: on balances
`±0.035` the only transaction carries `0.04`, not the un-rounded
`min(creditor.balance, -debtor.balance) = 0.035` the claim states. -/
theorem cmf_emits_rounded_amount :
    calculateMinCashFlow [⟨"A", 7/200⟩, ⟨"B", -(7/200)⟩] = [⟨"B", "A", 4/100⟩] ∧
    (4 : ℚ)/100 ≠ min (7/200 : ℚ) (-(-(7/200) : ℚ)) := by
  constructor
  · norm_num +decide [calculateMinCashFlow, List.filter_cons, decide_eq_true_eq,
      tol, abs, max_def]
    repeat
      rw [cmfLoop]
      norm_num +decide [cmfIter, bestIdx, bestIdxAux, gtB, ltB, dflt, round2,
        tol, abs, max_def]
  · norm_num

/-- C2 (code bug).  A balanced, cent-valued input on which the plan returned
by `calculateMinCashFlow` does not settle the group: the input sums to
exactly zero, yet applying the returned transactions leaves member `E` at
`-0.02`, beyond the `0.01` tolerance.  The removal of members whose running
balance is *at* the tolerance (`|net| ≤ 0.01`) silently discards a cent per
removal, so a later member can never be paid off — contradicting both the
specification's settlement guarantee and the function's own documentation
("settle all debts"). -/
theorem settlement_plan_leaves_unsettled_balance :
    (([(⟨"A", 3/100⟩ : SimplifiedBalance), ⟨"B", 3/100⟩, ⟨"C", -(2/100)⟩,
        ⟨"D", -(2/100)⟩, ⟨"E", -(2/100)⟩].map SimplifiedBalance.net_amount).sum = 0) ∧
    calculateMinCashFlow [⟨"A", 3/100⟩, ⟨"B", 3/100⟩, ⟨"C", -(2/100)⟩,
        ⟨"D", -(2/100)⟩, ⟨"E", -(2/100)⟩] =
      [⟨"C", "A", 2/100⟩, ⟨"D", "B", 2/100⟩] ∧
    applyTxs [⟨"A", 3/100⟩, ⟨"B", 3/100⟩, ⟨"C", -(2/100)⟩, ⟨"D", -(2/100)⟩,
        ⟨"E", -(2/100)⟩]
      (calculateMinCashFlow [⟨"A", 3/100⟩, ⟨"B", 3/100⟩, ⟨"C", -(2/100)⟩,
        ⟨"D", -(2/100)⟩, ⟨"E", -(2/100)⟩]) =
      [⟨"A", 1/100⟩, ⟨"B", 1/100⟩, ⟨"C", 0⟩, ⟨"D", 0⟩, ⟨"E", -(2/100)⟩] ∧
    ¬(|(-(2/100) : ℚ)| ≤ tol) := by
  have hcalc : calculateMinCashFlow [⟨"A", 3/100⟩, ⟨"B", 3/100⟩, ⟨"C", -(2/100)⟩,
      ⟨"D", -(2/100)⟩, ⟨"E", -(2/100)⟩] =
      [⟨"C", "A", 2/100⟩, ⟨"D", "B", 2/100⟩] := by
    norm_num +decide [calculateMinCashFlow, List.filter_cons, decide_eq_true_eq,
      tol, abs, max_def]
    repeat
      rw [cmfLoop]
      norm_num +decide [cmfIter, bestIdx, bestIdxAux, gtB, ltB, dflt, round2,
        tol, abs, max_def]
  refine ⟨by norm_num, hcalc, ?_, by norm_num [tol, abs, max_def]⟩
  rw [hcalc]
  norm_num +decide [applyTxs, applyTx]

end Expensetracking
